import Mathlib

/-!
Shallow embedding of `src/monadplay.cc`: a pedagogical C++14 program that
defines `unit` and `prod` (bind) over `std::list`, derives `fmap` and `foldl`,
checks the three monad laws over a generated integer sequence, and runs an
arithmetic demonstration.

Modelling choices:
- `std::list<T>` becomes `List T` (ordered finite sequence).
- `int64_t` becomes `Int`, with every C++ arithmetic operator result wrapped
  by `i64`, the explicit two's-complement reduction modulo `2^64`; C++ `/`
  on `int64_t` truncates toward zero, which is `Int.tdiv`.
- The recursive template `prod` becomes a structurally recursive function.
- `main` is factored into the value-level checks it computes plus a trace
  model `mainRun` of its printed output and exit code, parametrised by the
  boolean outcomes that the source computes before branching.
-/

namespace Monadplay

/-- Two's-complement wrap of an integer into the `int64_t` range,
modelling C++ `int64_t` arithmetic results. -/
def i64 (x : Int) : Int := (x + 2 ^ 63) % 2 ^ 64 - 2 ^ 63

/-- Step 1 of the source: `unit` wraps a value as a one-element list. -/
def unit (x : α) : List α := [x]

/-- Step 2 of the source: `prod` (bind). Empty input yields the empty list;
otherwise apply `f` to the front element, pop it, and splice the recursive
result of the rest onto the end. -/
def prod (f : α → List β) : List α → List β
  | [] => []
  | x :: xs => f x ++ prod f xs

/-- Step 5 of the source: `fmap` defined through `prod` and `unit`. The C++
signature returns `std::list<X>` for input `std::list<X>`, fixing the result
element type to the input element type. -/
def fmap (f : α → α) (x : List α) : List α :=
  prod (fun y => unit (f y)) x

/-- Step 6 of the source: `foldl` over a list, `y = f(y, i)` for each
element `i` front to back. -/
def foldl (f : γ → α → γ) : List α → γ → γ
  | [], y => y
  | i :: m, y => foldl f m (f y i)

/-- Task 1 of `main`: `std::list<int64_t> ls(100); std::iota(ls.begin(),
ls.end(), 0);` — the consecutive integers 0..99. -/
def ls : List Int := (List.range 100).map Nat.cast

/-- Task 2 of `main`: the endofunctor `f = [](int64_t x) { return unit(x * x); }`. -/
def f (x : Int) : List Int := unit (i64 (x * x))

/-- Task 2 of `main`: the endofunctor `g = [](int64_t x) { return unit(x + x); }`. -/
def g (x : Int) : List Int := unit (i64 (x + x))

/-- law1 of the source: left identity, `prod(f, unit(x)) == f(x)`. -/
def law1 (x : Int) : Bool := prod f (unit x) == f x

/-- law2 of the source: right identity,
`prod(static_cast<U>(&unit), unit(x)) == std::list<int64_t>{x}`. -/
def law2 (x : Int) : Bool := prod unit (unit x) == [x]

/-- law3 of the source: associativity,
`prod(f, prod(g, unit(x))) == prod([=](auto x) { return prod(f, g(x)); }, unit(x))`. -/
def law3 (x : Int) : Bool :=
  prod f (prod g (unit x)) == prod (fun x => prod f (g x)) (unit x)

/-- laws_check of the source: the accumulator folded over the test sequence,
`s && law1(x) && law2(x) && law3(x)`. -/
def laws_check (s : Bool) (x : Int) : Bool :=
  s && law1 x && law2 x && law3 x

/-- sum of the source: `[](auto x, auto y) { return x + y; }` at `int64_t`. -/
def sum (x y : Int) : Int := i64 (x + y)

/-- dif of the source: `[](auto x, auto y) { return x - y; }` at `int64_t`. -/
def dif (x y : Int) : Int := i64 (x - y)

/-- sqr of the source: `[](auto x) { return x * x; }` at `int64_t`. -/
def sqr (x : Int) : Int := i64 (x * x)

/-- sn1 of the source: `[](auto x) { return x*(x+1)/2; }` at `int64_t`. -/
def sn1 (x : Int) : Int := Int.tdiv (i64 (x * i64 (x + 1))) 2

/-- sn2 of the source: `[](auto x) { return x*(x+1)*(2*x+1)/6; }` at `int64_t`. -/
def sn2 (x : Int) : Int :=
  Int.tdiv (i64 (i64 (x * i64 (x + 1)) * i64 (i64 (2 * x) + 1))) 6

/-- par of the source: partial application of the second argument,
`[](auto x, auto y) { return [=](auto z) { return x(z, y); }; }`. -/
def par (x : α → β → γ) (y : β) : α → γ := fun z => x z y

/-- dot of the source: composition,
`[](auto x, auto y) { return [=](auto z) { return x(y(z)); }; }`. -/
def dot (x : β → γ) (y : α → β) : α → γ := fun z => x (y z)

/-- dx_sqr of the source: `fmap(dot(sqr, par(dif, x)), l)`, the list of
squared differences from the pivot `x` over `l`. -/
def dx_sqr (x : Int) (l : List Int) : List Int := fmap (dot sqr (par dif x)) l

/-- sigma_squares of the source: `foldl(sum, fmap(sqr, x), int64_t{})`. -/
def sigma_squares (x : List Int) : Int := foldl sum (fmap sqr x) 0

/-- sigma_sqr of the source: `sqr(foldl(sum, x, int64_t{}))`. -/
def sigma_sqr (x : List Int) : Int := sqr (foldl sum x 0)

/-- sigma_dx2 of the source: `foldl(sum, prod(par(dx_sqr, x), x), int64_t{})`,
the sum over all ordered pairs of squared differences. -/
def sigma_dx2 (x : List Int) : Int := foldl sum (prod (par dx_sqr x) x) 0

/-- First arithmetic check of `main`:
`foldl(sum, prod(g, ls), int64_t{}) == 2*sn1(ls.size()-1)`. -/
def check1 : Bool := foldl sum (prod g ls) 0 == i64 (2 * sn1 99)

/-- Second arithmetic check of `main`:
`foldl(sum, prod(f, ls), int64_t{}) == sn2(ls.size()-1)`. -/
def check2 : Bool := foldl sum (prod f ls) 0 == sn2 99

/-- Third arithmetic check of `main`:
`ls.size() * sigma_squares(ls) - sigma_sqr(ls) == sigma_dx2(ls) / 2`. -/
def check3 : Bool :=
  i64 (i64 (100 * sigma_squares ls) - sigma_sqr ls) == Int.tdiv (sigma_dx2 ls) 2

/-- Exact Σx² over unbounded integers, written from the spec formula
`n·Σx² − (Σx)² = ½·ΣᵢΣⱼ(xᵢ−xⱼ)²`, for the no-overflow comparison. -/
def sigma_squares_exact (l : List Int) : Int := (l.map (fun x => x * x)).sum

/-- Exact (Σx)² over unbounded integers, for the no-overflow comparison. -/
def sigma_sqr_exact (l : List Int) : Int := l.sum * l.sum

/-- Exact ΣᵢΣⱼ(xᵢ−xⱼ)² over unbounded integers, for the no-overflow
comparison. -/
def sigma_dx2_exact (l : List Int) : Int :=
  (l.map (fun a => (l.map (fun b => (b - a) * (b - a))).sum)).sum

/-- A report printed by `main`: the guarded confirmation block, or one of
the three arithmetic result lines carrying its printed true/false outcome. -/
inductive Ev where
  | confirmation : Ev
  | sumOfDoubles : Bool → Ev
  | sumOfSquares : Bool → Ev
  | pairwiseIdentity : Bool → Ev
deriving DecidableEq

/-- Output trace and exit code of `main` as a function of the laws-fold
outcome and the three arithmetic check outcomes, transcribing the control
flow of the source: the confirmation block is printed only inside
`if(foldl(laws_check, ls, true))`, the three arithmetic result lines are
printed unconditionally after that `if` block, and the exit status is
always 0 (`return {};`). -/
def mainRun (lawsOK c1 c2 c3 : Bool) : List Ev × Int :=
  ((if lawsOK then [Ev.confirmation] else []) ++
    [Ev.sumOfDoubles c1, Ev.sumOfSquares c2, Ev.pairwiseIdentity c3], 0)

/-- The actual run of `main`: the guard and checks instantiated with the
values the source computes on the generated sequence `ls`. -/
def mainActual : List Ev × Int :=
  mainRun (foldl laws_check ls true) check1 check2 check3

/-! Helper lemmas shared by several claims. -/

/-- General shape of `prod`: concatenation, in input order, of the images. -/
lemma prod_eq_flatten_map (f : α → List β) (xs : List α) :
    prod f xs = (xs.map f).flatten := by
  induction xs with
  | nil => rfl
  | cons x xs ih => simp [prod, ih]

/-- General shape of `fmap`: element-wise mapping. -/
lemma fmap_eq_map {α : Type} (f : α → α) (xs : List α) :
    fmap f xs = xs.map f := by
  induction xs with
  | nil => rfl
  | cons x xs ih => simp [fmap, prod, unit] at ih ⊢; simpa using ih

/-- The `int64_t` wrap is the identity on values in the representable
range. -/
lemma i64_eq_self (x : Int) (h1 : -(2 ^ 63) ≤ x) (h2 : x < 2 ^ 63) :
    i64 x = x := by
  unfold i64
  rw [Int.emod_eq_of_lt (by omega) (by omega)]
  ring

lemma list_sum_nonneg (l : List Int) (h : ∀ x ∈ l, 0 ≤ x) : 0 ≤ l.sum := by
  induction l with
  | nil => simp
  | cons x m ih =>
      have hx := h x (by simp)
      have hm := ih (fun y hy => h y (by simp [hy]))
      simp only [List.sum_cons]
      linarith

lemma list_sum_le (l : List Int) (M : Int) (h : ∀ x ∈ l, x ≤ M) :
    l.sum ≤ (l.length : Int) * M := by
  induction l with
  | nil => simp
  | cons x m ih =>
      have hx := h x (by simp)
      have hm := ih (fun y hy => h y (by simp [hy]))
      simp only [List.sum_cons, List.length_cons]
      have he : ((m.length : Int) + 1) * M = (m.length : Int) * M + M := by ring
      push_cast
      linarith

/-- The `int64_t` left fold of `sum` computes the exact sum as long as the
accumulator and all elements are nonnegative and the total stays below
`2^63`. -/
lemma foldl_sum_eq :
    ∀ (l : List Int) (a : Int), 0 ≤ a → (∀ x ∈ l, 0 ≤ x) →
      a + l.sum < 2 ^ 63 → foldl sum l a = a + l.sum := by
  intro l
  induction l with
  | nil => intro a _ _ _; simp [foldl]
  | cons x m ih =>
      intro a ha hl hb
      have hx : 0 ≤ x := hl x (by simp)
      have hm : ∀ y ∈ m, 0 ≤ y := fun y hy => hl y (by simp [hy])
      have hms : 0 ≤ m.sum := list_sum_nonneg m hm
      simp only [List.sum_cons] at hb
      have hsx : sum a x = a + x := by
        unfold sum
        exact i64_eq_self _ (by omega) (by omega)
      rw [show foldl sum (x :: m) a = foldl sum m (sum a x) from rfl, hsx,
        ih (a + x) (by omega) hm (by omega)]
      simp only [List.sum_cons]
      ring

lemma ls_length : ls.length = 100 := by
  unfold ls
  rw [List.length_map, List.length_range]

lemma ls_bounds : ∀ x ∈ ls, 0 ≤ x ∧ x ≤ 99 := by
  intro x hx
  unfold ls at hx
  rw [List.mem_map] at hx
  obtain ⟨n, hn, rfl⟩ := hx
  rw [List.mem_range] at hn
  omega

lemma ls_sum_bounds : 0 ≤ ls.sum ∧ ls.sum ≤ 9900 := by
  constructor
  · exact list_sum_nonneg ls (fun x hx => (ls_bounds x hx).1)
  · have h := list_sum_le ls 99 (fun x hx => (ls_bounds x hx).2)
    rw [ls_length] at h
    push_cast at h
    linarith

lemma sq_map_bounds : ∀ y ∈ ls.map (fun x => x * x), 0 ≤ y ∧ y ≤ 9801 := by
  intro y hy
  simp only [List.mem_map] at hy
  obtain ⟨x, hx, rfl⟩ := hy
  obtain ⟨h0, h9⟩ := ls_bounds x hx
  exact ⟨mul_nonneg h0 h0, by nlinarith⟩

lemma sigma_squares_exact_bounds :
    0 ≤ sigma_squares_exact ls ∧ sigma_squares_exact ls ≤ 980100 := by
  unfold sigma_squares_exact
  constructor
  · exact list_sum_nonneg _ (fun y hy => (sq_map_bounds y hy).1)
  · have h := list_sum_le _ 9801 (fun y hy => (sq_map_bounds y hy).2)
    rw [List.length_map, ls_length] at h
    push_cast at h
    linarith

lemma sigma_sqr_exact_bounds :
    0 ≤ sigma_sqr_exact ls ∧ sigma_sqr_exact ls ≤ 98010000 := by
  unfold sigma_sqr_exact
  obtain ⟨h0, h1⟩ := ls_sum_bounds
  exact ⟨mul_nonneg h0 h0, by nlinarith⟩

/-- Expanding one inner sum of squared differences. -/
lemma map_sub_sq_sum (a : Int) (m : List Int) :
    (m.map (fun b => (b - a) * (b - a))).sum
      = (m.map (fun b => b * b)).sum - 2 * a * m.sum
        + (m.length : Int) * (a * a) := by
  induction m with
  | nil => simp
  | cons x t ih =>
      simp only [List.map_cons, List.sum_cons, List.length_cons]
      rw [ih]
      push_cast
      ring

/-- The double sum of squared differences over two lists, expanded. -/
lemma double_sum_identity (l m : List Int) :
    (l.map (fun a => (m.map (fun b => (b - a) * (b - a))).sum)).sum
      = (l.length : Int) * (m.map (fun b => b * b)).sum
        - 2 * l.sum * m.sum
        + (m.length : Int) * (l.map (fun a => a * a)).sum := by
  induction l with
  | nil => simp
  | cons x t ih =>
      simp only [List.map_cons, List.sum_cons, List.length_cons]
      rw [map_sub_sq_sum, ih]
      push_cast
      ring

/-- The pairwise-difference identity over unbounded integers, for every
finite list. -/
lemma sigma_dx2_exact_eq (l : List Int) :
    sigma_dx2_exact l
      = 2 * ((l.length : Int) * sigma_squares_exact l - sigma_sqr_exact l) := by
  unfold sigma_dx2_exact sigma_squares_exact sigma_sqr_exact
  rw [double_sum_identity]
  ring

lemma sigma_squares_ls_eq : sigma_squares ls = sigma_squares_exact ls := by
  unfold sigma_squares
  rw [fmap_eq_map]
  have hmap : ls.map sqr = ls.map (fun x => x * x) := by
    apply List.map_congr_left
    intro x hx
    obtain ⟨h0, h9⟩ := ls_bounds x hx
    unfold sqr
    exact i64_eq_self _ (by nlinarith) (by nlinarith)
  rw [hmap]
  have hb : (0 : Int) + (ls.map (fun x => x * x)).sum < 2 ^ 63 := by
    have h := sigma_squares_exact_bounds.2
    unfold sigma_squares_exact at h
    omega
  rw [foldl_sum_eq _ 0 le_rfl (fun y hy => (sq_map_bounds y hy).1) hb]
  unfold sigma_squares_exact
  ring

lemma sigma_sqr_ls_eq : sigma_sqr ls = sigma_sqr_exact ls := by
  unfold sigma_sqr
  obtain ⟨h0, h1⟩ := ls_sum_bounds
  rw [foldl_sum_eq ls 0 le_rfl (fun x hx => (ls_bounds x hx).1) (by omega),
    zero_add]
  unfold sqr sigma_sqr_exact
  exact i64_eq_self _ (by nlinarith) (by nlinarith)

lemma dx_sqr_ls_eq (z : Int) (h0 : 0 ≤ z) (h9 : z ≤ 99) :
    dx_sqr z ls = ls.map (fun w => (w - z) * (w - z)) := by
  unfold dx_sqr
  rw [fmap_eq_map]
  apply List.map_congr_left
  intro w hw
  obtain ⟨hw0, hw9⟩ := ls_bounds w hw
  simp only [dot, par, sqr, dif]
  rw [i64_eq_self (w - z) (by omega) (by omega)]
  exact i64_eq_self _ (by nlinarith) (by nlinarith)

lemma flatten_sum_bounds (L : List (List Int)) (M : Int)
    (h : ∀ l ∈ L, (∀ x ∈ l, 0 ≤ x) ∧ l.sum ≤ M) :
    0 ≤ L.flatten.sum ∧ L.flatten.sum ≤ (L.length : Int) * M := by
  induction L with
  | nil => simp
  | cons l T ih =>
      obtain ⟨hl, hls⟩ := h l (by simp)
      have iht := ih (fun t ht => h t (by simp [ht]))
      have h0 : 0 ≤ l.sum := list_sum_nonneg l hl
      simp only [List.flatten_cons, List.sum_append, List.length_cons]
      have he : ((T.length : Int) + 1) * M = (T.length : Int) * M + M := by
        ring
      push_cast
      constructor
      · linarith [iht.1]
      · linarith [iht.2]

lemma sigma_dx2_ls_eq : sigma_dx2 ls = sigma_dx2_exact ls := by
  unfold sigma_dx2
  have hprod : prod (par dx_sqr ls) ls
      = (ls.map (fun z => ls.map (fun w => (w - z) * (w - z)))).flatten := by
    rw [prod_eq_flatten_map]
    have hmaps : ls.map (par dx_sqr ls)
        = ls.map (fun z => ls.map (fun w => (w - z) * (w - z))) := by
      apply List.map_congr_left
      intro z hz
      obtain ⟨h0, h9⟩ := ls_bounds z hz
      simpa [par] using dx_sqr_ls_eq z h0 h9
    rw [hmaps]
  have hLb : ∀ l ∈ ls.map (fun z => ls.map (fun w => (w - z) * (w - z))),
      (∀ x ∈ l, 0 ≤ x) ∧ l.sum ≤ 980100 := by
    intro l hl
    simp only [List.mem_map] at hl
    obtain ⟨z, hz, rfl⟩ := hl
    constructor
    · intro x hx
      simp only [List.mem_map] at hx
      obtain ⟨w, hw, rfl⟩ := hx
      exact mul_self_nonneg _
    · have hb : ∀ x ∈ ls.map (fun w => (w - z) * (w - z)), x ≤ 9801 := by
        intro x hx
        simp only [List.mem_map] at hx
        obtain ⟨w, hw, rfl⟩ := hx
        obtain ⟨hw0, hw9⟩ := ls_bounds w hw
        obtain ⟨hz0, hz9⟩ := ls_bounds z hz
        nlinarith
      have h := list_sum_le _ 9801 hb
      rw [List.length_map, ls_length] at h
      push_cast at h
      linarith
  have hfl := flatten_sum_bounds _ 980100 hLb
  rw [List.length_map, ls_length] at hfl
  push_cast at hfl
  have hnn : ∀ x ∈ (ls.map (fun z => ls.map (fun w => (w - z) * (w - z)))).flatten,
      0 ≤ x := by
    intro x hx
    rw [List.mem_flatten] at hx
    obtain ⟨l, hl, hxl⟩ := hx
    exact (hLb l hl).1 x hxl
  rw [hprod, foldl_sum_eq _ 0 le_rfl hnn (by omega), zero_add]
  unfold sigma_dx2_exact
  rw [List.sum_flatten, List.map_map]
  exact congrArg List.sum (List.map_congr_left (fun z _ => rfl))

lemma check3_eq_true : check3 = true := by
  unfold check3
  rw [sigma_squares_ls_eq, sigma_sqr_ls_eq, sigma_dx2_ls_eq]
  obtain ⟨hs0, hs1⟩ := sigma_squares_exact_bounds
  obtain ⟨hq0, hq1⟩ := sigma_sqr_exact_bounds
  rw [i64_eq_self (100 * sigma_squares_exact ls) (by omega) (by omega)]
  rw [i64_eq_self _ (by omega) (by omega)]
  rw [sigma_dx2_exact_eq]
  have hlen : ((ls.length : Nat) : Int) = 100 := by rw [ls_length]; rfl
  rw [hlen, Int.mul_tdiv_cancel_left _ (by norm_num)]
  exact beq_self_eq_true _

lemma exact_identity_on_ls :
    (100 : Int) * sigma_squares_exact ls - sigma_sqr_exact ls =
      Int.tdiv (sigma_dx2_exact ls) 2 := by
  rw [sigma_dx2_exact_eq]
  have hlen : ((ls.length : Nat) : Int) = 100 := by rw [ls_length]; rfl
  rw [hlen, Int.mul_tdiv_cancel_left _ (by norm_num)]

lemma law1_eq_true (x : Int) : law1 x = true := by
  simp [law1, prod, unit]

lemma law2_eq_true (x : Int) : law2 x = true := by
  simp [law2, prod, unit]

lemma law3_eq_true (x : Int) : law3 x = true := by
  simp [law3, prod, unit, f, g]

lemma foldl_laws_check_true (l : List Int) :
    foldl laws_check l true = true := by
  induction l with
  | nil => rfl
  | cons i m ih =>
      simpa [foldl, laws_check, law1_eq_true, law2_eq_true, law3_eq_true]
        using ih

/-- C1: for every function `f : T → Sequence U` and every finite input
sequence `xs`, `prod f xs` is the concatenation, in input order, of `f x`
for each `x` of `xs`; on the empty sequence the result is empty and does not
depend on `f` (so `f` need not be invoked). -/
theorem prod_concatenates_in_order {α β : Type} :
    (∀ (f : α → List β) (xs : List α), prod f xs = (xs.map f).flatten) ∧
    (∀ (f₁ f₂ : α → List β), prod f₁ ([] : List α) = [] ∧
      prod f₁ ([] : List α) = prod f₂ ([] : List α)) :=
  ⟨fun f xs => prod_eq_flatten_map f xs, fun _ _ => ⟨rfl, rfl⟩⟩

/-- C2: associativity over every tested value of the generated sequence:
`prod(f, prod(g, unit(x)))` structurally equals
`prod(y ↦ prod(f, g(y)), unit(x))` for each `x` in `ls`. -/
theorem law3_holds_on_all_tested : ls.all law3 = true := by
  simp [List.all_eq_true, law3_eq_true]

/-- C3: left identity over every tested value of the generated sequence:
`prod(f, unit(x))` structurally equals `f(x)` for each `x` in `ls`. -/
theorem law1_holds_on_all_tested : ls.all law1 = true := by
  simp [List.all_eq_true, law1_eq_true]

/-- C4: right identity over every tested value of the generated sequence:
`prod(unit, unit(x))` structurally equals `unit(x)` for each `x` in `ls`. -/
theorem law2_holds_on_all_tested : ls.all law2 = true := by
  simp [List.all_eq_true, law2_eq_true]

/-- C5 counterexample: the arithmetic demonstration lines are printed even
when the laws-fold guard is false, so the program does not run the
demonstration "only if" the conjunction of the law checks holds: the trace
of `main` with guard outcome `false` still contains the third demonstration
report. -/
theorem arithmetic_demo_unguarded_cex :
    Ev.pairwiseIdentity true ∈ (mainRun false true true true).1 ∧
      (false : Bool) ≠ true := by
  decide

/-- C5 amended: the guard `foldl(laws_check, ls, true)` controls only the
confirmation block; the three arithmetic demonstration lines are printed
unconditionally for every outcome of the guard and checks. In the actual
run the guard is true, so the confirmation block is printed as well. -/
theorem confirmation_guarded_demo_unconditional :
    (∀ lawsOK c1 c2 c3 : Bool,
        Ev.sumOfDoubles c1 ∈ (mainRun lawsOK c1 c2 c3).1 ∧
        Ev.sumOfSquares c2 ∈ (mainRun lawsOK c1 c2 c3).1 ∧
        Ev.pairwiseIdentity c3 ∈ (mainRun lawsOK c1 c2 c3).1) ∧
    (∀ lawsOK c1 c2 c3 : Bool,
        (Ev.confirmation ∈ (mainRun lawsOK c1 c2 c3).1 ↔ lawsOK = true)) ∧
    foldl laws_check ls true = true := by
  refine ⟨by decide, by decide, foldl_laws_check_true ls⟩

/-- C7: `fmap f xs` equals the explicit element-wise mapping of `f` over
`xs` (same length, i-th element is `f` of the i-th input element); the C++
signature fixes the result element type to the input element type. -/
theorem fmap_eq_elementwise_map {α : Type} (f : α → α) (xs : List α) :
    fmap f xs = xs.map f := by
  induction xs with
  | nil => rfl
  | cons x xs ih => simp [fmap, prod, unit] at ih ⊢; simpa using ih

/-- C8: on the generated 100-element sequence 0..99, the third arithmetic
check evaluates true, every `int64_t` sigma quantity equals its exact
unbounded-integer value (no overflow), and the pairwise-difference identity
`n·Σx² − (Σx)² = ½·ΣᵢΣⱼ(xᵢ−xⱼ)²` holds exactly. -/
theorem pairwise_identity_check_true_no_overflow :
    check3 = true ∧
    sigma_squares ls = sigma_squares_exact ls ∧
    sigma_sqr ls = sigma_sqr_exact ls ∧
    sigma_dx2 ls = sigma_dx2_exact ls ∧
    (100 : Int) * sigma_squares_exact ls - sigma_sqr_exact ls =
      Int.tdiv (sigma_dx2_exact ls) 2 :=
  ⟨check3_eq_true, sigma_squares_ls_eq, sigma_sqr_ls_eq, sigma_dx2_ls_eq,
    exact_identity_on_ls⟩

/-- C9: the exit status of `main` is 0 for every outcome of the law checks
and of the three arithmetic checks; failures influence only the printed
reports, never the exit code. -/
theorem exit_status_always_zero :
    ∀ lawsOK c1 c2 c3 : Bool, (mainRun lawsOK c1 c2 c3).2 = 0 :=
  fun _ _ _ _ => rfl

/-- C10: right identity holds for every finite sequence, not only for
singletons: `prod unit xs = xs`. -/
theorem prod_unit_eq_self {α : Type} (xs : List α) : prod unit xs = xs := by
  induction xs with
  | nil => rfl
  | cons x xs ih => simp [prod, unit, ih]

end Monadplay
